import Mathlib

/-!
Verification of the peak-identification and drift-calibration engine of the
fatty-acid analysis tool (`src/app.py`).

The engine works on a reference table of named compounds with expected
retention times (`get_standard_data`), estimates a per-sample time offset
from the anchor compound `C14:0` and matches every observed peak to the
nearest calibrated reference entry within a tolerance
(`calculate_shift_and_match` / `match_row`).

Numbers are modelled as rationals: the Python floats in the program are all
short decimal literals and the arithmetic performed on them (addition,
subtraction, absolute value, comparison, division) is exact on those values.

Pandas operations are modelled by their documented/observed semantics:
* `Series.idxmin` returns the first index achieving the minimum
  (`idxminBy` below);
* `DataFrame.sort_values(by=k)` sorts the rows by column `k`; its default
  `kind='quicksort'` leaves the relative order of equal keys unspecified,
  so `sort_values_asc` fixes one deterministic order (an insertion sort),
  and `sort_values_desc` adds the arrangement pandas `nargsort` applies
  for `ascending=False` (reverse, argsort, reverse). The theorems below
  use only the fact that the top row of a sort optimizes its key, which
  holds for any correct sort whatever its tie order;
* boolean-mask filtering is `List.filter`;
* a lookup such as `df[df[c] == v].values[0]` is `List.find?` (its failure,
  an `IndexError`, is modelled by propagating `none`).
-/

namespace FatTool

/-- One row of the reference table: a compound name and its expected
(uncalibrated) retention time in minutes (`fatty acid` / `std_time`
columns in `get_standard_data`). -/
structure RefEntry where
  name : String
  std_time : ℚ
deriving DecidableEq, Repr

/-- One observed chromatography peak of a sample: retention time and
integrated area (the user-selected time and area columns). -/
structure Peak where
  time : ℚ
  area : ℚ
deriving DecidableEq, Repr

/-- The built-in reference table of `get_standard_data` in `src/app.py`,
in its load order. -/
def get_standard_data : List RefEntry :=
  [⟨"C14:0", 11.972⟩, ⟨"C14:1", 12.299⟩, ⟨"C16:0", 14.611⟩,
   ⟨"C16:1", 14.787⟩, ⟨"C18:0", 16.261⟩, ⟨"C18:1n-9", 17.251⟩,
   ⟨"C18:1n-7", 17.750⟩, ⟨"C18:2n-6(LA)", 18.400⟩,
   ⟨"C18:3n-3(ALA)", 19.193⟩, ⟨"C18:4n-3", 20.675⟩,
   ⟨"C20:0", 21.056⟩, ⟨"C20:1n-9", 21.644⟩, ⟨"C20:3n-3 ", 22.668⟩,
   ⟨"C20:2n-6", 22.726⟩, ⟨"C20:4n-3", 23.544⟩,
   ⟨"C20:4n-6（ARA）", 23.811⟩, ⟨"C20:5n-3  (EPA)", 24.347⟩,
   ⟨"C22:1n-11", 26.737⟩, ⟨"C22:5n-3(DPA)", 30.662⟩,
   ⟨"C22:6n-3(DHA)", 31.955⟩]

/-- Label assigned to a peak no reference entry matches ("unmatched"). -/
def unmatched_label : String := "未知"

/-- First element of `l` achieving the minimal key — the row selected by
`df.loc[df[k].idxmin()]` (pandas `idxmin` returns the first occurrence of
the minimum). -/
def idxminBy {α : Type} (f : α → ℚ) : List α → Option α
  | [] => none
  | x :: xs =>
    match idxminBy f xs with
    | none => some x
    | some b => some (if f b < f x then b else x)

/-- Last element of `l` achieving the maximal key (the bottom row of the
model's ascending sort). -/
def argmaxLast {α : Type} (f : α → ℚ) : List α → Option α
  | [] => none
  | x :: xs =>
    match argmaxLast f xs with
    | none => some x
    | some b => some (if f b < f x then x else b)

/-- First element of `l` achieving the maximal key (the top row of the
model's descending sort). -/
def argmaxFirst {α : Type} (f : α → ℚ) : List α → Option α
  | [] => none
  | x :: xs =>
    match argmaxFirst f xs with
    | none => some x
    | some b => some (if f x < f b then b else x)

/-- Stable insertion of `x` into `l` by key: `x` is placed before the first
element whose key is ≥ its own. -/
def insertByKey {α : Type} (key : α → ℚ) (x : α) : List α → List α
  | [] => [x]
  | y :: ys => if key x ≤ key y then x :: y :: ys else y :: insertByKey key x ys

/-- Ascending insertion sort by key: one deterministic comparison sort
standing in for numpy's argsort, whose order among equal keys the program
does not pin down. -/
def sortByKey {α : Type} (key : α → ℚ) : List α → List α
  | [] => []
  | x :: xs => insertByKey key x (sortByKey key xs)

/-- Pandas `df.sort_values(by=k)`: ascending sort of the rows by column
`k`; the tie order of the default sort kind is unspecified, and no theorem
below depends on the one this model fixes. -/
def sort_values_asc {α : Type} (key : α → ℚ) (l : List α) : List α :=
  sortByKey key l

/-- Pandas `df.sort_values(by=k, ascending=False)`: `nargsort` reverses
the rows, argsorts them ascending, and reverses the resulting index order
once more; the tie order of the default sort kind is unspecified, and no
theorem below depends on the one this model fixes. -/
def sort_values_desc {α : Type} (key : α → ℚ) (l : List α) : List α :=
  (sortByKey key l.reverse).reverse

/-- Anchor search radius around the expected `C14:0` time
(`search_window = 1.5` in `calculate_shift_and_match`). -/
def search_window : ℚ := 1.5

/-- The candidate anchor peaks: observed peaks whose time lies within
`search_window` of the expected `C14:0` time (the boolean-mask filter in
`calculate_shift_and_match`). -/
def anchorCandidates (c14_std_time : ℚ) (df_sample : List Peak) : List Peak :=
  df_sample.filter fun p =>
    decide (c14_std_time - search_window ≤ p.time) &&
    decide (p.time ≤ c14_std_time + search_window)

/-- Selection of the anchor peak among the candidates: with an area column,
the top row after sorting by area descending; without one, the top row
after sorting by `|time - c14_std_time|` ascending. `none` iff there are
no candidates. -/
def selectAnchor (has_area : Bool) (c14_std_time : ℚ) (candidates : List Peak) :
    Option Peak :=
  if has_area then (sort_values_desc (fun p => p.area) candidates).head?
  else (sort_values_asc (fun p => |p.time - c14_std_time|) candidates).head?

/-- Calibrated expected time of a reference entry:
`current_std['calibrated_time'] = current_std['std_time'] + shift`. -/
def calibrated_time (e : RefEntry) (shift : ℚ) : ℚ :=
  e.std_time + shift

/-- The matcher `match_row` of `calculate_shift_and_match`: find the
reference entry whose calibrated time is closest to `row_time` (first one
on ties, via `idxmin`) and assign its name when the residual is within
`tolerance`, the unmatched label otherwise. Returns the assigned name and
the residual; `none` models the `idxmin` failure on an empty table. -/
def match_row (std_df : List RefEntry) (shift tolerance row_time : ℚ) :
    Option (String × ℚ) :=
  (idxminBy (fun e => |calibrated_time e shift - row_time|) std_df).map
    fun closest =>
      if |calibrated_time closest shift - row_time| ≤ tolerance then
        (closest.name, |calibrated_time closest shift - row_time|)
      else
        (unmatched_label, |calibrated_time closest shift - row_time|)

/-- Matching directly against the uncalibrated reference times, written
from the spec's words for the offset-application law: the nearest entry by
`|std_time - row_time|` with the same tolerance gate. -/
def match_row_uncalibrated (std_df : List RefEntry) (tolerance row_time : ℚ) :
    Option (String × ℚ) :=
  (idxminBy (fun e => |e.std_time - row_time|) std_df).map
    fun closest =>
      if |closest.std_time - row_time| ≤ tolerance then
        (closest.name, |closest.std_time - row_time|)
      else
        (unmatched_label, |closest.std_time - row_time|)

/-- Apply an option-valued function to every element, propagating failure
(the per-row application of `match_row` in Step 3 of
`calculate_shift_and_match`; a `match_row` failure would abort the run). -/
def optionMapList {α β : Type} (f : α → Option β) : List α → Option (List β)
  | [] => some []
  | x :: xs =>
    match f x, optionMapList f xs with
    | some y, some ys => some (y :: ys)
    | _, _ => none

/-- Output of `calculate_shift_and_match`: the input rows paired with their
assigned names (the `匹配结果` column added to the copied sample frame),
whether the anchor was found, the offset, and the observed anchor time. -/
structure CalibOut where
  results : List (Peak × String)
  found_c14 : Bool
  shift : ℚ
  c14_actual_time : ℚ
deriving DecidableEq, Repr

/-- The core routine `calculate_shift_and_match` of `src/app.py`:
look up the expected `C14:0` time, pick the anchor among the in-window
candidates (largest area when an area column is available, otherwise
closest time), set `shift` to the anchor drift (or `0.0` with
`found_c14 = False` when there is no candidate), and match every row of
the sample. `none` models the uncaught exceptions (anchor name absent
from the table / empty table). -/
def calculate_shift_and_match (df_sample : List Peak) (has_area : Bool)
    (std_df : List RefEntry) (tolerance : ℚ) : Option CalibOut :=
  match std_df.find? (fun e => e.name = "C14:0") with
  | none => none
  | some a =>
    match selectAnchor has_area a.std_time (anchorCandidates a.std_time df_sample) with
    | some best_c14 =>
      match optionMapList
          (fun p => match_row std_df (best_c14.time - a.std_time) tolerance p.time)
          df_sample with
      | none => none
      | some ms =>
        some ⟨df_sample.zip (ms.map Prod.fst), true,
          best_c14.time - a.std_time, best_c14.time⟩
    | none =>
      match optionMapList (fun p => match_row std_df 0 tolerance p.time) df_sample with
      | none => none
      | some ms => some ⟨df_sample.zip (ms.map Prod.fst), false, 0, 0⟩

/-- Matched peaks kept by the aggregator: those not carrying the unmatched
label. -/
def keptPeaks (matched : List (Peak × String)) : List (Peak × String) :=
  matched.filter fun pn => pn.2 ≠ unmatched_label

/-- Total matched area assigned to compound `n`. -/
def totalArea (kept : List (Peak × String)) (n : String) : ℚ :=
  ((kept.filter fun pn => pn.2 = n).map fun pn => pn.1.area).sum

/-- Compound names present in a sample, in reference-table order. -/
def presentNames (std_df : List RefEntry) (matched : List (Peak × String)) :
    List String :=
  (std_df.map fun e => e.name).filter fun n =>
    (keptPeaks matched).any fun pn => pn.2 = n

/-- Sum of all groups' total areas for one sample. -/
def grandTotal (std_df : List RefEntry) (matched : List (Peak × String)) : ℚ :=
  ((presentNames std_df matched).map fun n =>
    totalArea (keptPeaks matched) n).sum

/-- Modelled from the spec: the Aggregator (spec §4.4) is not part of
`src/app.py` (this variant only renders the per-row match table), so it is
modelled from the spec's words: discard unmatched peaks, group by assigned
name, sum the areas per group, and report
`percentage[name] = 100 * total_area[name] / total` when `total > 0` and
`0` for every compound otherwise, rows in reference-table order restricted
to names present. Each output row is `(name, total_area, percentage)`. -/
def aggregate (std_df : List RefEntry) (matched : List (Peak × String)) :
    List (String × ℚ × ℚ) :=
  (presentNames std_df matched).map fun n =>
    (n, totalArea (keptPeaks matched) n,
      if 0 < grandTotal std_df matched then
        100 * totalArea (keptPeaks matched) n / grandTotal std_df matched
      else 0)

/-- Failures of reference-table construction (spec §4.1/§7). -/
inductive RefLoadError where
  | DuplicateNameError
  | InvalidTimeError
deriving DecidableEq, Repr

/-- Modelled from the spec: `load(entries)` of the Reference Table (spec
§4.1) is not part of `src/app.py` (the table there is the hardcoded
`get_standard_data`), so it is modelled from the spec's words: constructing
from `(name, expected_time)` pairs fails with `DuplicateNameError` when two
names collide and with `InvalidTimeError` when any expected time is ≤ 0;
otherwise the full table is returned in load order. -/
def load (entries : List (String × ℚ)) : Except RefLoadError (List RefEntry) :=
  if (entries.map Prod.fst).Nodup then
    if entries.any (fun e => decide (e.2 ≤ 0)) then
      .error .InvalidTimeError
    else
      .ok (entries.map fun e => ⟨e.1, e.2⟩)
  else
    .error .DuplicateNameError

/-! ## Helper lemmas about the selection primitives -/

/-- The element returned by `idxminBy` is the first one achieving the
minimal key: it is at some position `i`, no key is smaller, and every
earlier key is strictly larger. -/
lemma idxminBy_spec {α : Type} (f : α → ℚ) :
    ∀ l : List α, l ≠ [] →
      ∃ i, ∃ hi : i < l.length, idxminBy f l = some l[i] ∧
        (∀ j, ∀ _ : j < l.length, f l[i] ≤ f l[j]) ∧
        (∀ j, ∀ _ : j < l.length, j < i → f l[i] < f l[j])
  | [], h => absurd rfl h
  | x :: xs, _ => by
    rcases eq_or_ne xs [] with rfl | hne
    · refine ⟨0, by simp, by simp [idxminBy], ?_, ?_⟩
      · intro j hj
        have hj0 : j = 0 := by simpa using Nat.lt_one_iff.mp (by simpa using hj)
        subst hj0; exact le_refl _
      · intro j hj hj0; omega
    · obtain ⟨i, hi, heq, hmin, hstrict⟩ := idxminBy_spec f xs hne
      by_cases hlt : f xs[i] < f x
      · refine ⟨i + 1, by simpa using Nat.succ_lt_succ hi, ?_, ?_, ?_⟩
        · simp [idxminBy, heq, if_pos hlt]
        · intro j hj
          cases j with
          | zero => simpa using le_of_lt hlt
          | succ k =>
            have hk : k < xs.length := by simpa using hj
            simpa using hmin k hk
        · intro j hj hji
          cases j with
          | zero => simpa using hlt
          | succ k =>
            have hk : k < xs.length := by simpa using hj
            simpa using hstrict k hk (by omega)
      · have hxb : f x ≤ f xs[i] := not_lt.mp hlt
        refine ⟨0, by simp, ?_, ?_, ?_⟩
        · simp [idxminBy, heq, if_neg hlt]
        · intro j hj
          cases j with
          | zero => simp
          | succ k =>
            have hk : k < xs.length := by simpa using hj
            simpa using le_trans hxb (hmin k hk)
        · intro j hj hj0; omega

/-- The element returned by `argmaxFirst` is the first one achieving the
maximal key. -/
lemma argmaxFirst_spec {α : Type} (f : α → ℚ) :
    ∀ l : List α, l ≠ [] →
      ∃ i, ∃ hi : i < l.length, argmaxFirst f l = some l[i] ∧
        (∀ j, ∀ _ : j < l.length, f l[j] ≤ f l[i]) ∧
        (∀ j, ∀ _ : j < l.length, j < i → f l[j] < f l[i])
  | [], h => absurd rfl h
  | x :: xs, _ => by
    rcases eq_or_ne xs [] with rfl | hne
    · refine ⟨0, by simp, by simp [argmaxFirst], ?_, ?_⟩
      · intro j hj
        have hj0 : j = 0 := by simpa using Nat.lt_one_iff.mp (by simpa using hj)
        subst hj0; exact le_refl _
      · intro j hj hj0; omega
    · obtain ⟨i, hi, heq, hmax, hstrict⟩ := argmaxFirst_spec f xs hne
      by_cases hlt : f x < f xs[i]
      · refine ⟨i + 1, by simpa using Nat.succ_lt_succ hi, ?_, ?_, ?_⟩
        · simp [argmaxFirst, heq, if_pos hlt]
        · intro j hj
          cases j with
          | zero => simpa using le_of_lt hlt
          | succ k =>
            have hk : k < xs.length := by simpa using hj
            simpa using hmax k hk
        · intro j hj hji
          cases j with
          | zero => simpa using hlt
          | succ k =>
            have hk : k < xs.length := by simpa using hj
            simpa using hstrict k hk (by omega)
      · have hxb : f xs[i] ≤ f x := not_lt.mp hlt
        refine ⟨0, by simp, ?_, ?_, ?_⟩
        · simp [argmaxFirst, heq, if_neg hlt]
        · intro j hj
          cases j with
          | zero => simp
          | succ k =>
            have hk : k < xs.length := by simpa using hj
            simpa using le_trans (hmax k hk) hxb
        · intro j hj hj0; omega

/-- Inserting never produces the empty list. -/
lemma insertByKey_ne_nil {α : Type} (key : α → ℚ) (x : α) (l : List α) :
    insertByKey key x l ≠ [] := by
  cases l with
  | nil => simp [insertByKey]
  | cons y ys =>
    rw [insertByKey]
    split <;> simp

/-- The head of a stable ascending insertion is the smaller of the new
element and the old head (the new element on ties). -/
lemma head?_insertByKey {α : Type} (key : α → ℚ) (x : α) (l : List α) :
    (insertByKey key x l).head? =
      some ((l.head?.map fun y => if key x ≤ key y then x else y).getD x) := by
  cases l with
  | nil => simp [insertByKey]
  | cons y ys =>
    rw [insertByKey]
    by_cases h : key x ≤ key y <;> simp [h]

/-- The head of the stable ascending sort is the first element achieving
the minimal key, exactly as `idxminBy` computes it. -/
lemma head?_sortByKey {α : Type} (key : α → ℚ) :
    ∀ l : List α, (sortByKey key l).head? = idxminBy key l
  | [] => by simp [sortByKey, idxminBy]
  | x :: xs => by
    rw [sortByKey, head?_insertByKey, head?_sortByKey key xs, idxminBy]
    cases h : idxminBy key xs with
    | none => simp
    | some b =>
      simp only [Option.map_some', Option.getD_some]
      by_cases hxb : key x ≤ key b
      · rw [if_pos hxb, if_neg (not_lt.mpr hxb)]
      · rw [if_neg hxb, if_pos (lt_of_not_le hxb)]

/-- Membership in an insertion. -/
lemma mem_insertByKey {α : Type} (key : α → ℚ) (x a : α) :
    ∀ l : List α, a ∈ insertByKey key x l ↔ a = x ∨ a ∈ l
  | [] => by simp [insertByKey]
  | y :: ys => by
    rw [insertByKey]
    by_cases h : key x ≤ key y
    · rw [if_pos h]
      simp
    · rw [if_neg h]
      simp only [List.mem_cons, mem_insertByKey key x a ys]
      tauto

/-- Stable insertion preserves ascending sortedness. -/
lemma pairwise_insertByKey {α : Type} (key : α → ℚ) (x : α) :
    ∀ {l : List α}, l.Pairwise (fun a b => key a ≤ key b) →
      (insertByKey key x l).Pairwise (fun a b => key a ≤ key b)
  | [], _ => by simp [insertByKey]
  | y :: ys, h => by
    rcases List.pairwise_cons.mp h with ⟨hy, hys⟩
    rw [insertByKey]
    by_cases hxy : key x ≤ key y
    · rw [if_pos hxy]
      refine List.pairwise_cons.mpr ⟨?_, h⟩
      intro b hb
      rcases List.mem_cons.mp hb with rfl | hb'
      · exact hxy
      · exact le_trans hxy (hy b hb')
    · rw [if_neg hxy]
      refine List.pairwise_cons.mpr ⟨?_, pairwise_insertByKey key x hys⟩
      intro b hb
      rcases (mem_insertByKey key x b ys).mp hb with rfl | hb'
      · exact le_of_lt (lt_of_not_le hxy)
      · exact hy b hb'

/-- The stable ascending sort is sorted. -/
lemma pairwise_sortByKey {α : Type} (key : α → ℚ) :
    ∀ l : List α, (sortByKey key l).Pairwise (fun a b => key a ≤ key b)
  | [] => by simp [sortByKey]
  | x :: xs => by
    rw [sortByKey]
    exact pairwise_insertByKey key x (pairwise_sortByKey key xs)

/-- The last element of an insertion into a sorted list: the new element
replaces the old last element only when its key is strictly larger. -/
lemma getLast?_insertByKey {α : Type} (key : α → ℚ) (x : α) :
    ∀ {l : List α}, l.Pairwise (fun a b => key a ≤ key b) →
      (insertByKey key x l).getLast? =
        some ((l.getLast?.map fun b => if key b < key x then x else b).getD x)
  | [], _ => by simp [insertByKey]
  | y :: ys, h => by
    rcases List.pairwise_cons.mp h with ⟨hy, hys⟩
    rw [insertByKey]
    by_cases hxy : key x ≤ key y
    · rw [if_pos hxy]
      obtain ⟨b, hb⟩ : ∃ b, (y :: ys).getLast? = some b :=
        ⟨(y :: ys).getLast (by simp), List.getLast?_eq_getLast _ _⟩
      have hbmem : b ∈ y :: ys := List.mem_of_getLast?_eq_some hb
      have hxb : key x ≤ key b := by
        rcases List.mem_cons.mp hbmem with rfl | hb'
        · exact hxy
        · exact le_trans hxy (hy b hb')
      rw [List.getLast?_cons_cons, hb]
      simp [if_neg (not_lt.mpr hxb)]
    · rw [if_neg hxy]
      obtain ⟨z, zs, hz⟩ : ∃ z zs, insertByKey key x ys = z :: zs := by
        cases hi : insertByKey key x ys with
        | nil => exact absurd hi (insertByKey_ne_nil key x ys)
        | cons z zs => exact ⟨z, zs, rfl⟩
      rw [hz, List.getLast?_cons_cons, ← hz, getLast?_insertByKey key x hys]
      cases hys2 : ys with
      | nil =>
        simp [if_pos (lt_of_not_le hxy)]
      | cons w ws =>
        obtain ⟨b, hb⟩ : ∃ b, (w :: ws).getLast? = some b :=
          ⟨(w :: ws).getLast (by simp), List.getLast?_eq_getLast _ _⟩
        rw [List.getLast?_cons_cons, hb]

/-- The last element of the stable ascending sort is the last element
achieving the maximal key, exactly as `argmaxLast` computes it. -/
lemma getLast?_sortByKey {α : Type} (key : α → ℚ) :
    ∀ l : List α, (sortByKey key l).getLast? = argmaxLast key l
  | [] => by simp [sortByKey, argmaxLast]
  | x :: xs => by
    rw [sortByKey, getLast?_insertByKey key x (pairwise_sortByKey key xs),
      getLast?_sortByKey key xs, argmaxLast]
    cases h : argmaxLast key xs with
    | none => simp
    | some b => simp

/-- On a nonempty list `argmaxLast` always returns a value. -/
lemma argmaxLast_cons_isSome {α : Type} (f : α → ℚ) (x : α) (xs : List α) :
    ∃ b, argmaxLast f (x :: xs) = some b := by
  rw [argmaxLast]
  cases argmaxLast f xs with
  | none => exact ⟨x, rfl⟩
  | some b => exact ⟨if f b < f x then x else b, rfl⟩

/-- Appending one element on the right updates `argmaxLast` by comparing
with the old maximum (the new element wins ties). -/
lemma argmaxLast_append_singleton {α : Type} (f : α → ℚ) (x : α) :
    ∀ m : List α, argmaxLast f (m ++ [x]) =
      some ((argmaxLast f m).elim x (fun b => if f b ≤ f x then x else b))
  | [] => by simp [argmaxLast]
  | y :: m' => by
    rw [List.cons_append, argmaxLast, argmaxLast_append_singleton f x m']
    cases h : argmaxLast f m' with
    | none =>
      have hm' : m' = [] := by
        cases m' with
        | nil => rfl
        | cons z zs =>
          obtain ⟨b, hb⟩ := argmaxLast_cons_isSome f z zs
          rw [hb] at h
          exact absurd h (by simp)
      subst hm'
      rw [argmaxLast]
      simp only [Option.elim, argmaxLast]
      by_cases hxy : f x < f y
      · rw [if_neg (not_le.mpr hxy), if_pos hxy]
      · rw [if_pos (not_lt.mp hxy), if_neg hxy]
    | some b =>
      simp only [Option.elim, argmaxLast, h]
      by_cases hbx : f b ≤ f x
      · rw [if_pos hbx]
        by_cases hxy : f x < f y
        · have hby : f b < f y := lt_of_le_of_lt hbx hxy
          rw [if_pos hxy, if_pos hby, if_neg (not_le.mpr hxy)]
        · by_cases hby : f b < f y
          · rw [if_neg hxy, if_pos hby, if_pos (not_lt.mp hxy)]
          · rw [if_neg hxy, if_neg hby, if_pos hbx]
      · have hxb : f x < f b := lt_of_not_le hbx
        rw [if_neg hbx]
        by_cases hby : f b < f y
        · have hxy : f x < f y := lt_trans hxb hby
          rw [if_pos hby, if_neg (not_le.mpr hxy)]
        · rw [if_neg hby, if_neg hbx]

/-- Computing `argmaxLast` of a reversed list gives `argmaxFirst` of the
original. -/
lemma argmaxLast_reverse {α : Type} (f : α → ℚ) :
    ∀ l : List α, argmaxLast f l.reverse = argmaxFirst f l
  | [] => by simp [argmaxLast, argmaxFirst]
  | x :: xs => by
    rw [List.reverse_cons, argmaxLast_append_singleton f x xs.reverse,
      argmaxLast_reverse f xs, argmaxFirst]
    cases h : argmaxFirst f xs with
    | none => simp
    | some b =>
      simp only [Option.elim]
      by_cases hbx : f b ≤ f x
      · rw [if_pos hbx, if_neg (not_lt.mpr hbx)]
      · rw [if_neg hbx, if_pos (lt_of_not_le hbx)]

/-- The top row of the model's descending sort is computed by
`argmaxFirst`. -/
lemma head?_sort_values_desc {α : Type} (key : α → ℚ) (l : List α) :
    (sort_values_desc key l).head? = argmaxFirst key l := by
  rw [sort_values_desc, List.head?_reverse, getLast?_sortByKey, argmaxLast_reverse]

/-- The top row of the model's ascending sort is computed by
`idxminBy`. -/
lemma head?_sort_values_asc {α : Type} (key : α → ℚ) (l : List α) :
    (sort_values_asc key l).head? = idxminBy key l := by
  rw [sort_values_asc, head?_sortByKey]

/-! ## Anchor selection, row matching and the full pipeline -/

/-- With no candidate the anchor selection yields nothing. -/
lemma selectAnchor_nil (has_area : Bool) (c14_std_time : ℚ) :
    selectAnchor has_area c14_std_time [] = none := by
  cases has_area <;>
    simp [selectAnchor, sort_values_desc, sort_values_asc, sortByKey]

/-- With an area column the anchor selection returns a candidate of
maximal area. -/
lemma selectAnchor_true_spec (c14_std_time : ℚ) (cands : List Peak)
    (h : cands ≠ []) :
    ∃ i, ∃ hi : i < cands.length,
      selectAnchor true c14_std_time cands = some cands[i] ∧
      (∀ j, ∀ _ : j < cands.length, cands[j].area ≤ cands[i].area) := by
  obtain ⟨i, hi, heq, hmax, _⟩ := argmaxFirst_spec (fun p => p.area) cands h
  refine ⟨i, hi, ?_, hmax⟩
  rw [selectAnchor, if_pos rfl, head?_sort_values_desc]
  exact heq

/-- Without an area column the anchor selection returns a candidate of
minimal distance to the expected anchor time. -/
lemma selectAnchor_false_spec (c14_std_time : ℚ) (cands : List Peak)
    (h : cands ≠ []) :
    ∃ i, ∃ hi : i < cands.length,
      selectAnchor false c14_std_time cands = some cands[i] ∧
      (∀ j, ∀ _ : j < cands.length,
        |cands[i].time - c14_std_time| ≤ |cands[j].time - c14_std_time|) := by
  obtain ⟨i, hi, heq, hmin, _⟩ :=
    idxminBy_spec (fun p => |p.time - c14_std_time|) cands h
  refine ⟨i, hi, ?_, hmin⟩
  rw [selectAnchor, if_neg (by simp), head?_sort_values_asc]
  exact heq

/-- Pointwise equal functions give equal `optionMapList` results. -/
lemma optionMapList_congr {α β : Type} {f g : α → Option β} :
    ∀ {l : List α}, (∀ x ∈ l, f x = g x) →
      optionMapList f l = optionMapList g l
  | [], _ => rfl
  | x :: xs, h => by
    rw [optionMapList, optionMapList, h x (by simp),
      optionMapList_congr (fun y hy => h y (List.mem_cons_of_mem x hy))]

/-- When `f` succeeds on every element, `optionMapList` succeeds and
preserves the length. -/
lemma optionMapList_isSome {α β : Type} (f : α → Option β) :
    ∀ l : List α, (∀ x ∈ l, ∃ y, f x = some y) →
      ∃ ms, optionMapList f l = some ms ∧ ms.length = l.length
  | [], _ => ⟨[], rfl, rfl⟩
  | x :: xs, h => by
    obtain ⟨y, hy⟩ := h x (by simp)
    obtain ⟨ms, hms, hlen⟩ :=
      optionMapList_isSome f xs (fun z hz => h z (List.mem_cons_of_mem x hz))
    exact ⟨y :: ms, by rw [optionMapList, hy, hms], by simp [hlen]⟩

/-- A successful `optionMapList` preserves the length. -/
lemma optionMapList_length {α β : Type} (f : α → Option β) :
    ∀ (l : List α) (ms : List β), optionMapList f l = some ms →
      ms.length = l.length
  | [], ms, h => by
    rw [optionMapList] at h
    cases h
    rfl
  | x :: xs, ms, h => by
    rw [optionMapList] at h
    cases hx : f x with
    | none => rw [hx] at h; exact absurd h (by simp)
    | some y =>
      cases hxs : optionMapList f xs with
      | none => rw [hx, hxs] at h; exact absurd h (by simp)
      | some ys =>
        rw [hx, hxs] at h
        cases h
        simp [optionMapList_length f xs ys hxs]

/-- On every nonempty reference table `match_row` succeeds. -/
lemma match_row_isSome (std_df : List RefEntry) (shift tolerance row_time : ℚ)
    (h : std_df ≠ []) :
    ∃ r, match_row std_df shift tolerance row_time = some r := by
  obtain ⟨i, hi, heq, _, _⟩ :=
    idxminBy_spec (fun e => |calibrated_time e shift - row_time|) std_df h
  rw [match_row, heq]
  exact ⟨_, rfl⟩

/-- With zero offset the matcher agrees with the spec's uncalibrated
matcher. -/
lemma match_row_zero (std_df : List RefEntry) (tolerance row_time : ℚ) :
    match_row std_df 0 tolerance row_time =
      match_row_uncalibrated std_df tolerance row_time := by
  rw [match_row, match_row_uncalibrated]
  simp only [calibrated_time, add_zero]

/-- Unfolding of `calculate_shift_and_match` when the anchor was selected. -/
lemma calculate_spec_found (df_sample : List Peak) (has_area : Bool)
    (std_df : List RefEntry) (tolerance : ℚ) (a : RefEntry) (b : Peak)
    (hfind : std_df.find? (fun e => e.name = "C14:0") = some a)
    (hsel : selectAnchor has_area a.std_time
      (anchorCandidates a.std_time df_sample) = some b) :
    ∃ ms,
      optionMapList
        (fun p => match_row std_df (b.time - a.std_time) tolerance p.time)
        df_sample = some ms ∧
      ms.length = df_sample.length ∧
      calculate_shift_and_match df_sample has_area std_df tolerance =
        some ⟨df_sample.zip (ms.map Prod.fst), true,
          b.time - a.std_time, b.time⟩ := by
  have hne : std_df ≠ [] := List.ne_nil_of_mem (List.mem_of_find?_eq_some hfind)
  obtain ⟨ms, hms, hlen⟩ := optionMapList_isSome
    (fun p => match_row std_df (b.time - a.std_time) tolerance p.time) df_sample
    (fun p _ => match_row_isSome std_df (b.time - a.std_time) tolerance p.time hne)
  refine ⟨ms, hms, hlen, ?_⟩
  rw [calculate_shift_and_match, hfind]
  dsimp only
  rw [hsel]
  dsimp only
  rw [hms]

/-- Unfolding of `calculate_shift_and_match` when no anchor candidate
exists. -/
lemma calculate_spec_not_found (df_sample : List Peak) (has_area : Bool)
    (std_df : List RefEntry) (tolerance : ℚ) (a : RefEntry)
    (hfind : std_df.find? (fun e => e.name = "C14:0") = some a)
    (hsel : selectAnchor has_area a.std_time
      (anchorCandidates a.std_time df_sample) = none) :
    ∃ ms,
      optionMapList (fun p => match_row std_df 0 tolerance p.time)
        df_sample = some ms ∧
      ms.length = df_sample.length ∧
      calculate_shift_and_match df_sample has_area std_df tolerance =
        some ⟨df_sample.zip (ms.map Prod.fst), false, 0, 0⟩ := by
  have hne : std_df ≠ [] := List.ne_nil_of_mem (List.mem_of_find?_eq_some hfind)
  have hrow : ∀ p : Peak, ∃ r, match_row std_df 0 tolerance p.time = some r :=
    fun p => match_row_isSome std_df 0 tolerance p.time hne
  have h2 := optionMapList_isSome
    (fun p : Peak => match_row std_df 0 tolerance p.time) df_sample
  obtain ⟨ms, hms, hlen⟩ := h2 (fun p _ => hrow p)
  refine ⟨ms, hms, hlen, ?_⟩
  rw [calculate_shift_and_match, hfind]
  dsimp only
  rw [hsel]
  dsimp only
  rw [hms]

/-- Scaling and dividing every summand scales and divides the sum. -/
lemma sum_map_mul_div (c T : ℚ) :
    ∀ l : List ℚ, (l.map fun x => c * x / T).sum = c * l.sum / T
  | [] => by simp
  | x :: xs => by
    rw [List.map_cons, List.sum_cons, sum_map_mul_div c T xs, List.sum_cons,
      mul_add, add_div]

/-! ## Claim theorems -/

/-- C1: for every observed peak time and every offset, `match_row` locates
the reference entry minimizing the calibrated residual
`|expected_time + offset - peak.time|`, breaking ties in favor of the
entry occurring first in reference-table order, and assigns its name
exactly when that minimal residual is at most the tolerance — otherwise it
assigns the unmatched label `未知`. -/
theorem match_row_assigns_nearest (std_df : List RefEntry)
    (shift tolerance row_time : ℚ) (hne : std_df ≠ []) :
    ∃ i, ∃ hi : i < std_df.length,
      (∀ j, ∀ _ : j < std_df.length,
        |calibrated_time std_df[i] shift - row_time| ≤
          |calibrated_time std_df[j] shift - row_time|) ∧
      (∀ j, ∀ _ : j < std_df.length, j < i →
        |calibrated_time std_df[i] shift - row_time| <
          |calibrated_time std_df[j] shift - row_time|) ∧
      match_row std_df shift tolerance row_time =
        some (if |calibrated_time std_df[i] shift - row_time| ≤ tolerance
              then std_df[i].name else unmatched_label,
          |calibrated_time std_df[i] shift - row_time|) := by
  obtain ⟨i, hi, heq, hmin, hstrict⟩ :=
    idxminBy_spec (fun e => |calibrated_time e shift - row_time|) std_df hne
  refine ⟨i, hi, hmin, hstrict, ?_⟩
  rw [match_row, heq]
  simp only [Option.map_some']
  split_ifs <;> rfl

/-- C7: the calibrated expected time is exactly `expected_time + offset`,
and matching with offset `0` coincides with matching directly against the
uncalibrated reference times. -/
theorem offset_application_exact (std_df : List RefEntry)
    (shift tolerance row_time : ℚ) (e : RefEntry) :
    calibrated_time e shift = e.std_time + shift ∧
    match_row std_df 0 tolerance row_time =
      match_row_uncalibrated std_df tolerance row_time :=
  ⟨rfl, match_row_zero std_df tolerance row_time⟩

/-- C2: when the sample has at least one peak inside the anchor search
window, drift estimation succeeds: the anchor is some in-window candidate
of maximal area when an area column is supplied, or of minimal distance
to the expected anchor time otherwise, and the reported offset is that
candidate's time minus the expected anchor time. -/
theorem anchor_selection_rule (df_sample : List Peak) (has_area : Bool)
    (std_df : List RefEntry) (tolerance : ℚ) (a : RefEntry)
    (hfind : std_df.find? (fun e => e.name = "C14:0") = some a)
    (hcand : anchorCandidates a.std_time df_sample ≠ []) :
    ∃ b out,
      calculate_shift_and_match df_sample has_area std_df tolerance =
        some out ∧
      out.found_c14 = true ∧
      out.shift = b.time - a.std_time ∧
      out.c14_actual_time = b.time ∧
      b ∈ anchorCandidates a.std_time df_sample ∧
      (has_area = true →
        ∀ c ∈ anchorCandidates a.std_time df_sample, c.area ≤ b.area) ∧
      (has_area = false →
        ∀ c ∈ anchorCandidates a.std_time df_sample,
          |b.time - a.std_time| ≤ |c.time - a.std_time|) := by
  cases has_area with
  | true =>
    obtain ⟨i, hi, hsel, hmax⟩ :=
      selectAnchor_true_spec a.std_time (anchorCandidates a.std_time df_sample) hcand
    obtain ⟨ms, _, _, hcalc⟩ :=
      calculate_spec_found df_sample true std_df tolerance a _ hfind hsel
    refine ⟨_, _, hcalc, rfl, rfl, rfl, List.getElem_mem hi, ?_, by simp⟩
    intro _ c hc
    obtain ⟨j, hj, rfl⟩ := List.mem_iff_getElem.mp hc
    exact hmax j hj
  | false =>
    obtain ⟨i, hi, hsel, hmin⟩ :=
      selectAnchor_false_spec a.std_time (anchorCandidates a.std_time df_sample) hcand
    obtain ⟨ms, _, _, hcalc⟩ :=
      calculate_spec_found df_sample false std_df tolerance a _ hfind hsel
    refine ⟨_, _, hcalc, rfl, rfl, rfl, List.getElem_mem hi, by simp, ?_⟩
    intro _ c hc
    obtain ⟨j, hj, rfl⟩ := List.mem_iff_getElem.mp hc
    have := hmin j hj
    simpa using this

/-- C5: when no observed peak lies inside the anchor search window, the
pipeline still succeeds: it reports `found_c14 = false` with offset `0`,
and every peak is matched against the uncalibrated reference times. -/
theorem no_anchor_fail_open (df_sample : List Peak) (has_area : Bool)
    (std_df : List RefEntry) (tolerance : ℚ) (a : RefEntry)
    (hfind : std_df.find? (fun e => e.name = "C14:0") = some a)
    (hnone : anchorCandidates a.std_time df_sample = []) :
    ∃ ms,
      optionMapList (fun p => match_row_uncalibrated std_df tolerance p.time)
        df_sample = some ms ∧
      ms.length = df_sample.length ∧
      calculate_shift_and_match df_sample has_area std_df tolerance =
        some ⟨df_sample.zip (ms.map Prod.fst), false, 0, 0⟩ := by
  have hsel : selectAnchor has_area a.std_time
      (anchorCandidates a.std_time df_sample) = none := by
    rw [hnone]
    exact selectAnchor_nil has_area a.std_time
  obtain ⟨ms, hms, hlen, hcalc⟩ :=
    calculate_spec_not_found df_sample has_area std_df tolerance a hfind hsel
  refine ⟨ms, ?_, hlen, hcalc⟩
  rw [← hms]
  exact optionMapList_congr
    (fun p _ => (match_row_zero std_df tolerance p.time).symm)

/-- C6: tolerance monotonicity of the matcher. A peak matched to a
compound name at tolerance `t1 ≤ t2` is matched to the same name with the
same residual at `t2`, and a peak unmatched at `t2` is unmatched at
`t1`. -/
theorem match_tolerance_monotone (std_df : List RefEntry)
    (shift t1 t2 row_time : ℚ) (h12 : t1 ≤ t2) :
    (∀ n d, match_row std_df shift t1 row_time = some (n, d) →
      n ≠ unmatched_label →
      match_row std_df shift t2 row_time = some (n, d)) ∧
    (∀ d, match_row std_df shift t2 row_time = some (unmatched_label, d) →
      match_row std_df shift t1 row_time = some (unmatched_label, d)) := by
  constructor
  · intro n d hm hn
    rw [match_row] at hm ⊢
    cases hq : idxminBy (fun e => |calibrated_time e shift - row_time|) std_df with
    | none =>
      rw [hq] at hm
      exact absurd hm (by simp)
    | some c =>
      rw [hq] at hm
      simp only [Option.map_some'] at hm ⊢
      by_cases h1 : |calibrated_time c shift - row_time| ≤ t1
      · rw [if_pos h1] at hm
        rw [if_pos (le_trans h1 h12)]
        exact hm
      · rw [if_neg h1] at hm
        have : n = unmatched_label := by
          have := (Option.some.inj hm)
          exact (Prod.mk.injEq _ _ _ _ ▸ this).1.symm ▸ rfl
        exact absurd this hn
  · intro d hm
    rw [match_row] at hm ⊢
    cases hq : idxminBy (fun e => |calibrated_time e shift - row_time|) std_df with
    | none =>
      rw [hq] at hm
      exact absurd hm (by simp)
    | some c =>
      rw [hq] at hm
      simp only [Option.map_some'] at hm ⊢
      by_cases h1 : |calibrated_time c shift - row_time| ≤ t1
      · have h2 : |calibrated_time c shift - row_time| ≤ t2 := le_trans h1 h12
        rw [if_pos h2] at hm
        rw [if_pos h1]
        exact hm
      · rw [if_neg h1]
        by_cases h2 : |calibrated_time c shift - row_time| ≤ t2
        · rw [if_pos h2] at hm
          obtain ⟨h3, h4⟩ := Prod.mk.injEq _ _ _ _ ▸ Option.some.inj hm
          rw [h4]
        · rw [if_neg h2] at hm
          exact hm

/-- C8: the pipeline is a pure function of its inputs: a successful run
pairs every input peak, unchanged and in input order, with the assignment
`match_row` computes for it from the (unmodified) reference table and the
run's offset; the first components of the result are exactly the input
peak list. -/
theorem matching_frame (df_sample : List Peak) (has_area : Bool)
    (std_df : List RefEntry) (tolerance : ℚ) (out : CalibOut)
    (h : calculate_shift_and_match df_sample has_area std_df tolerance =
      some out) :
    out.results.map Prod.fst = df_sample ∧
    out.results.length = df_sample.length ∧
    ∃ ms,
      optionMapList (fun p => match_row std_df out.shift tolerance p.time)
        df_sample = some ms ∧
      out.results = df_sample.zip (ms.map Prod.fst) := by
  rw [calculate_shift_and_match] at h
  cases hfind : std_df.find? (fun e => e.name = "C14:0") with
  | none =>
    rw [hfind] at h
    exact absurd h (by simp)
  | some a =>
    rw [hfind] at h
    dsimp only at h
    cases hsel : selectAnchor has_area a.std_time
        (anchorCandidates a.std_time df_sample) with
    | some b =>
      rw [hsel] at h
      dsimp only at h
      cases hml : optionMapList
          (fun p => match_row std_df (b.time - a.std_time) tolerance p.time)
          df_sample with
      | none =>
        rw [hml] at h
        exact absurd h (by simp)
      | some ms =>
        rw [hml] at h
        injection h with h
        subst h
        have hlen : ms.length = df_sample.length :=
          optionMapList_length _ df_sample ms hml
        refine ⟨?_, ?_, ms, hml, rfl⟩
        · exact List.map_fst_zip df_sample (ms.map Prod.fst) (by simp [hlen])
        · simp [hlen]
    | none =>
      rw [hsel] at h
      dsimp only at h
      cases hml : optionMapList
          (fun p => match_row std_df 0 tolerance p.time) df_sample with
      | none =>
        rw [hml] at h
        exact absurd h (by simp)
      | some ms =>
        rw [hml] at h
        injection h with h
        subst h
        have hlen : ms.length = df_sample.length :=
          optionMapList_length _ df_sample ms hml
        refine ⟨?_, ?_, ms, hml, rfl⟩
        · exact List.map_fst_zip df_sample (ms.map Prod.fst) (by simp [hlen])
        · simp [hlen]

/-- C3 (amended): in every aggregated sample result the reported pair for
a compound is its total matched area together with
`100 * total_area / total`; whenever the total matched area is positive
the percentages sum to exactly `100`, and whenever it is `0` every
percentage is reported as `0` (no division is attempted). -/
theorem aggregate_percentage_law (std_df : List RefEntry)
    (matched : List (Peak × String)) :
    (∀ r ∈ aggregate std_df matched,
      r.2.1 = totalArea (keptPeaks matched) r.1 ∧
      r.2.2 = (if 0 < grandTotal std_df matched then
        100 * totalArea (keptPeaks matched) r.1 / grandTotal std_df matched
        else 0)) ∧
    (0 < grandTotal std_df matched →
      ((aggregate std_df matched).map fun r => r.2.2).sum = 100) ∧
    (grandTotal std_df matched = 0 →
      ∀ r ∈ aggregate std_df matched, r.2.2 = 0) := by
  refine ⟨?_, ?_, ?_⟩
  · intro r hr
    obtain ⟨n, _, rfl⟩ := List.mem_map.mp hr
    exact ⟨rfl, rfl⟩
  · intro ht
    have hT : grandTotal std_df matched ≠ 0 := ne_of_gt ht
    rw [aggregate, List.map_map]
    have hcongr :
        ((presentNames std_df matched).map
          ((fun r : String × ℚ × ℚ => r.2.2) ∘ fun n =>
            (n, totalArea (keptPeaks matched) n,
              if 0 < grandTotal std_df matched then
                100 * totalArea (keptPeaks matched) n / grandTotal std_df matched
              else 0))) =
        ((presentNames std_df matched).map fun n =>
          100 * totalArea (keptPeaks matched) n / grandTotal std_df matched) := by
      refine List.map_congr_left ?_
      intro n _
      simp only [Function.comp_apply]
      rw [if_pos ht]
    rw [hcongr,
      show ((presentNames std_df matched).map fun n =>
          100 * totalArea (keptPeaks matched) n / grandTotal std_df matched) =
        (((presentNames std_df matched).map fun n =>
          totalArea (keptPeaks matched) n).map fun x =>
            100 * x / grandTotal std_df matched) from by
        rw [List.map_map]
        rfl,
      sum_map_mul_div]
    rw [show ((presentNames std_df matched).map fun n =>
      totalArea (keptPeaks matched) n).sum = grandTotal std_df matched from rfl]
    rw [mul_div_assoc, div_self hT, mul_one]
  · intro ht r hr
    obtain ⟨n, _, rfl⟩ := List.mem_map.mp hr
    simp only
    rw [if_neg (by rw [ht]; exact lt_irrefl 0)]

/-- C3 counterexample: a sample in which one peak matched (a `C14:0` peak
of area `0`) but whose percentages sum to `0`, not `100`: the claim's
"sums to 100 whenever at least one peak matched" fails when the total
matched area is zero. -/
theorem aggregate_sum_counterexample :
    keptPeaks [((⟨12, 0⟩ : Peak), "C14:0")] ≠ [] ∧
    ((aggregate [⟨"C14:0", 12⟩] [((⟨12, 0⟩ : Peak), "C14:0")]).map
      fun r => r.2.2).sum = 0 ∧
    (0 : ℚ) ≠ 100 := by
  refine ⟨by decide, ?_, by norm_num⟩
  with_unfolding_all decide

/-- C9: reference-table construction (spec-modelled `load`) fails with
`DuplicateNameError` whenever two entries share a name, fails with
`InvalidTimeError` whenever the names are distinct but some expected time
is ≤ 0, and returns a table only when every name is unique and every time
is positive — on failure no table at all is produced. -/
theorem load_validates_reference (entries : List (String × ℚ)) :
    (¬ (entries.map Prod.fst).Nodup →
      load entries = .error .DuplicateNameError) ∧
    ((entries.map Prod.fst).Nodup → (∃ p ∈ entries, p.2 ≤ 0) →
      load entries = .error .InvalidTimeError) ∧
    (∀ tbl, load entries = .ok tbl →
      (entries.map Prod.fst).Nodup ∧ (∀ p ∈ entries, 0 < p.2) ∧
      tbl = entries.map fun e => ⟨e.1, e.2⟩) := by
  refine ⟨?_, ?_, ?_⟩
  · intro hdup
    rw [load, if_neg hdup]
  · rintro hnd ⟨p, hp, hple⟩
    rw [load, if_pos hnd, if_pos (List.any_eq_true.mpr ⟨p, hp, by simpa using hple⟩)]
  · intro tbl h
    rw [load] at h
    by_cases hnd : (entries.map Prod.fst).Nodup
    · rw [if_pos hnd] at h
      by_cases hany : entries.any (fun e => decide (e.2 ≤ 0)) = true
      · rw [if_pos hany] at h
        exact absurd h (by simp)
      · rw [if_neg hany] at h
        refine ⟨hnd, ?_, (Except.ok.inj h).symm⟩
        intro p hp
        by_contra hle
        exact hany (List.any_eq_true.mpr
          ⟨p, hp, by simpa using not_lt.mp hle⟩)
    · rw [if_neg hnd] at h
      exact absurd h (by simp)

/-- C10: the built-in reference table has exactly 20 entries with pairwise
distinct names and strictly positive, strictly increasing expected times
in load order; it contains the anchor `C14:0` at `11.972`, so the
hardcoded anchor lookup of `calculate_shift_and_match` succeeds and the
pipeline never fails on this table. -/
theorem standard_table_invariants :
    get_standard_data.length = 20 ∧
    (get_standard_data.map fun e => e.name).Nodup ∧
    (get_standard_data.map fun e => e.std_time).Pairwise (· < ·) ∧
    (∀ e ∈ get_standard_data, 0 < e.std_time) ∧
    get_standard_data.find? (fun e => e.name = "C14:0") =
      some ⟨"C14:0", 11.972⟩ ∧
    (∀ (df_sample : List Peak) (has_area : Bool) (tolerance : ℚ),
      ∃ out, calculate_shift_and_match df_sample has_area get_standard_data
        tolerance = some out) := by
  refine ⟨by decide, by decide, by with_unfolding_all decide,
    by with_unfolding_all decide, rfl, ?_⟩
  intro df_sample has_area tolerance
  have hfind : get_standard_data.find? (fun e => e.name = "C14:0") =
      some ⟨"C14:0", 11.972⟩ := rfl
  cases hsel : selectAnchor has_area (RefEntry.mk "C14:0" 11.972).std_time
      (anchorCandidates (RefEntry.mk "C14:0" 11.972).std_time df_sample) with
  | some b =>
    obtain ⟨ms, _, _, hcalc⟩ := calculate_spec_found df_sample has_area
      get_standard_data tolerance (RefEntry.mk "C14:0" 11.972) b hfind hsel
    exact ⟨_, hcalc⟩
  | none =>
    obtain ⟨ms, _, _, hcalc⟩ := calculate_spec_not_found df_sample has_area
      get_standard_data tolerance (RefEntry.mk "C14:0" 11.972) hfind hsel
    exact ⟨_, hcalc⟩

/-! ## Witnesses: the claim theorems applied at concrete inputs -/

/-- Witness: `match_row_assigns_nearest` instantiated on a two-entry
table. -/
theorem match_row_assigns_nearest_witness :
    (match_row [⟨"A", 1⟩, ⟨"B", 2⟩] 0 1 1).isSome = true := by
  obtain ⟨i, hi, _, _, heq⟩ :=
    match_row_assigns_nearest [⟨"A", 1⟩, ⟨"B", 2⟩] 0 1 1 (by decide)
  rw [heq]
  rfl

/-- Witness: `anchor_selection_rule` instantiated on a one-peak sample whose peak
lies inside the anchor window. -/
theorem anchor_selection_rule_witness :
    ∃ out, calculate_shift_and_match [(⟨12, 5⟩ : Peak)] true
      [⟨"C14:0", 12⟩] 1 = some out ∧ out.found_c14 = true := by
  obtain ⟨b, out, hcalc, hfound, _⟩ :=
    anchor_selection_rule [⟨12, 5⟩] true [⟨"C14:0", 12⟩] 1 ⟨"C14:0", 12⟩ rfl
      (by with_unfolding_all decide)
  exact ⟨out, hcalc, hfound⟩

/-- Witness: `aggregate_percentage_law` instantiated: one matched peak of positive
area gives percentages summing to 100. -/
theorem aggregate_percentage_law_witness :
    ((aggregate [⟨"A", 1⟩] [((⟨1, 5⟩ : Peak), "A")]).map fun r => r.2.2).sum
      = 100 :=
  (aggregate_percentage_law [⟨"A", 1⟩] [(⟨1, 5⟩, "A")]).2.1
    (by with_unfolding_all decide)

/-- Witness: `no_anchor_fail_open` instantiated on a sample whose only peak lies
far outside the anchor window. -/
theorem no_anchor_fail_open_witness :
    ∃ ms,
      optionMapList (fun p => match_row_uncalibrated [⟨"C14:0", 12⟩] 1 p.time)
        [(⟨20, 10⟩ : Peak)] = some ms ∧
      ms.length = [(⟨20, 10⟩ : Peak)].length ∧
      calculate_shift_and_match [(⟨20, 10⟩ : Peak)] true [⟨"C14:0", 12⟩] 1 =
        some ⟨[(⟨20, 10⟩ : Peak)].zip (ms.map Prod.fst), false, 0, 0⟩ :=
  no_anchor_fail_open [⟨20, 10⟩] true [⟨"C14:0", 12⟩] 1 ⟨"C14:0", 12⟩ rfl
    (by with_unfolding_all decide)

/-- Witness: `match_tolerance_monotone` instantiated: a peak matched at tolerance
`1/2` keeps its assignment at tolerance `1`. -/
theorem match_tolerance_monotone_witness :
    match_row [(⟨"A", 1⟩ : RefEntry)] 0 1 1 = some ("A", 0) :=
  (match_tolerance_monotone [⟨"A", 1⟩] 0 (1/2) 1 1 (by norm_num)).1 "A" 0
    (by with_unfolding_all decide) (by decide)

/-- Witness: `matching_frame` instantiated on an empty sample. -/
theorem matching_frame_witness :
    (CalibOut.mk [] false 0 0).results.map Prod.fst = ([] : List Peak) ∧
    (CalibOut.mk [] false 0 0).results.length = ([] : List Peak).length ∧
    ∃ ms,
      optionMapList
        (fun p => match_row [⟨"C14:0", 12⟩] (CalibOut.mk [] false 0 0).shift 1
          p.time) ([] : List Peak) = some ms ∧
      (CalibOut.mk [] false 0 0).results = ([] : List Peak).zip (ms.map Prod.fst) :=
  matching_frame [] false [⟨"C14:0", 12⟩] 1 ⟨[], false, 0, 0⟩
    (by with_unfolding_all decide)

/-- Witness: `load_validates_reference` instantiated on a duplicate-name input and
on a non-positive-time input. -/
theorem load_validates_reference_witness :
    load [("a", 1), ("a", 2)] = .error .DuplicateNameError ∧
    load [("b", -1)] = .error .InvalidTimeError :=
  ⟨(load_validates_reference [("a", 1), ("a", 2)]).1 (by decide),
    (load_validates_reference [("b", -1)]).2.1 (by decide)
      ⟨("b", -1), by simp, by norm_num⟩⟩

end FatTool
